import Mathlib

/-!
Shallow embedding of `src/scripts/heightmap_geodata.py` (xyz_to_png), a
one-shot converter from (x, y, z) elevation triplets to an 8-bit grayscale
raster.  Real numbers of the script are modelled as rationals, Python's
`int()` conversion as truncation toward zero, and the fallible steps
(line parsing, `min`/`max` on an empty list, dictionary lookup) as
`Except`/`Option` values.
-/

/-- A parsed elevation sample `(x, y, z)`. -/
abbrev Point := ℚ × ℚ × ℚ

/-- One input line after tokenization: the list of whitespace-separated
tokens, each token being `some q` when `float()` parses it to `q` and
`none` when it is not a number.  A blank line (empty after stripping)
tokenizes to `[]`. -/
abbrev Line := List (Option ℚ)

/-- The raster, addressed as `grid column row`. -/
abbrev Grid := ℕ → ℕ → ℤ

/-- Failures of the pipeline: `format` models the `ValueError` raised by
`x, y, z = map(float, line.split())`, `emptyMin` the `ValueError` of
`min([])`, `keyError` a failed dictionary lookup. -/
inductive Err where
  | format
  | emptyMin
  | keyError
deriving DecidableEq, Repr

/-- Python's `int()` on a real value: truncation toward zero. -/
def pyInt (q : ℚ) : ℤ :=
  if 0 ≤ q then q.floor else q.ceil

/-- `x, y, z = map(float, line.split())` on one line; blank lines are
skipped (`ok none`), anything that is not exactly three numeric tokens
raises (`error format`). -/
def parseLine : Line → Except Err (Option Point)
  | [] => Except.ok none
  | [some x, some y, some z] => Except.ok (some (x, y, z))
  | _ => Except.error Err.format

/-- The input reading loop: parse every line in order, skipping blanks,
aborting on the first malformed line. -/
def parseLines : List Line → Except Err (List Point)
  | [] => Except.ok []
  | l :: rest =>
    match parseLine l with
    | Except.error e => Except.error e
    | Except.ok none => parseLines rest
    | Except.ok (some p) => (parseLines rest).map (fun ps => p :: ps)

/-- Whether a tokenized line parses cleanly: blank, or exactly three
numeric tokens. -/
def wellFormedLine : Line → Bool
  | [] => true
  | [some _, some _, some _] => true
  | _ => false

/-- Ordered insertion that drops duplicates; `sortedDistinct` below uses
it to model Python's `sorted(set(...))`. -/
def insertS (a : ℚ) : List ℚ → List ℚ
  | [] => [a]
  | b :: l => if a < b then a :: b :: l else if a = b then b :: l else b :: insertS a l

/-- `sorted(set(l))`: the distinct values of `l` in ascending order. -/
def sortedDistinct (l : List ℚ) : List ℚ :=
  l.foldr insertS []

/-- `xs = sorted(set(p[0] for p in points))`. -/
def xAxis (pts : List Point) : List ℚ :=
  sortedDistinct (pts.map (fun p => p.1))

/-- `ys = sorted(set(p[1] for p in points))`. -/
def yAxis (pts : List Point) : List ℚ :=
  sortedDistinct (pts.map (fun p => p.2.1))

/-- The position of `v` in `l` (the index `enumerate` pairs with `v` when
`l` has no duplicates). -/
def idxOf (v : ℚ) : List ℚ → ℕ
  | [] => 0
  | a :: l => if v = a then 0 else idxOf v l + 1

/-- Lookup in the dictionary `{v: i for i, v in enumerate(axis)}`: defined
exactly when the key is present, and then returning the key's position. -/
def lookupIdx (axis : List ℚ) (v : ℚ) : Option ℕ :=
  if v ∈ axis then some (idxOf v axis) else none

/-- `min(l)` of Python: `none` on the empty list (a `ValueError` there). -/
def listMin : List ℚ → Option ℚ
  | [] => none
  | a :: rest => some (rest.foldl min a)

/-- `max(l)` of Python: `none` on the empty list. -/
def listMax : List ℚ → Option ℚ
  | [] => none
  | a :: rest => some (rest.foldl max a)

/-- `pixels[px, py] = v`. -/
def setPixel (g : Grid) (px py : ℕ) (v : ℤ) : Grid :=
  fun i j => if i = px ∧ j = py then v else g i j

/-- The raster of `Image.new("L", (width, height))`: every cell black. -/
def emptyGrid : Grid := fun _ _ => 0

/-- The pixel-fill loop: for each sample look up its column and row,
quantize `z`, and write at the vertically flipped row.  A missing
dictionary key aborts with `none` (Python's `KeyError`); it is proved
below never to happen for the axes built from the same samples. -/
def fillLoop (xs ys : List ℚ) (height : ℕ) (zmin znorm : ℚ) :
    List Point → Grid → Option Grid
  | [], g => some g
  | p :: rest, g =>
    match lookupIdx xs p.1, lookupIdx ys p.2.1 with
    | some px, some py =>
        fillLoop xs ys height zmin znorm rest
          (setPixel g px (height - 1 - py) (pyInt ((p.2.2 - zmin) * znorm)))
    | _, _ => none

/-- The raster cell a sample is written to: its column is the position of
`x` on the x-axis, its row the vertically flipped position of `y`. -/
def pointTarget (xs ys : List ℚ) (height : ℕ) (p : Point) : ℕ × ℕ :=
  (idxOf p.1 xs, height - 1 - idxOf p.2.1 ys)

/-- The quantized intensity a sample is written with:
`int((z - z_min) * z_norm)`. -/
def pointValue (zmin znorm : ℚ) (p : Point) : ℤ :=
  pyInt ((p.2.2 - zmin) * znorm)

/-- The write a sample performs at cell `(i, j)`: its quantized value if
the sample targets that cell, nothing otherwise. -/
def writeAt (xs ys : List ℚ) (height : ℕ) (zmin znorm : ℚ) (i j : ℕ) (p : Point) :
    Option ℤ :=
  if pointTarget xs ys height p = (i, j) then some (pointValue zmin znorm p) else none

/-- The last `some` value `f` takes along a list — the value left in a
cell after all writes are replayed in input order. -/
def lastVal (f : Point → Option ℤ) : List Point → Option ℤ
  | [] => none
  | p :: rest =>
    match lastVal f rest with
    | some v => some v
    | none => f p

/-- The result of a successful run: the image dimensions, the derived
normalization data and the populated raster. -/
structure RunOutput where
  width : ℕ
  height : ℕ
  zMin : ℚ
  zMax : ℚ
  zRange : ℚ
  zNorm : ℚ
  grid : Grid

/-- Everything after parsing: build the axes, compute the z-range
(`z_range = z_max - z_min or 1.0`, so `1.0` exactly when the difference
is zero), the factor `z_norm = 255 / z_range`, and fill a raster whose
cells all start at `0`. -/
def process (pts : List Point) : Except Err RunOutput :=
  let xs := xAxis pts
  let ys := yAxis pts
  let width := xs.length
  let height := ys.length
  match listMin (pts.map (fun p => p.2.2)), listMax (pts.map (fun p => p.2.2)) with
  | some zmin, some zmax =>
    let zr := if zmax - zmin = 0 then 1 else zmax - zmin
    let znorm := 255 / zr
    match fillLoop xs ys height zmin znorm pts emptyGrid with
    | some g => Except.ok ⟨width, height, zmin, zmax, zr, znorm, g⟩
    | none => Except.error Err.keyError
  | _, _ => Except.error Err.emptyMin

/-- The whole data pipeline: parse, then process.  An `Except.error`
means the run aborted before `img.save`, so no output file is written. -/
def run (lines : List Line) : Except Err RunOutput :=
  (parseLines lines).bind process

/-- The command-line gate of the script, over tokenized `sys.argv`:
anything but exactly one argument is a usage error, and the single
argument must end (case-insensitively) in `.xyz`.  Only a `proceed`
result goes on to open the input file; the error results print and
`sys.exit(1)` first. -/
inductive CliResult where
  | usageError
  | extensionError
  | proceed (inputFile : List Char)
deriving DecidableEq, Repr

/-- `input_file.lower()`. -/
def strLower (s : List Char) : List Char := s.map Char.toLower

/-- The required elevation-data extension `".xyz"`. -/
def xyzExt : List Char := ['.', 'x', 'y', 'z']

/-- `len(sys.argv) != 2` and `input_file.lower().endswith(".xyz")`. -/
def checkArgs : List (List Char) → CliResult
  | [_, input] =>
    if xyzExt.isSuffixOf (strLower input) then CliResult.proceed input
    else CliResult.extensionError
  | _ => CliResult.usageError

/-- The process exit status implied by each gate outcome (`sys.exit(1)`
on both error paths). -/
def cliExitCode : CliResult → ℕ
  | CliResult.proceed _ => 0
  | _ => 1

theorem rat_floor_eq_floor (q : ℚ) : q.floor = ⌊q⌋ := rfl

theorem sortedDistinct_cons (a : ℚ) (l : List ℚ) :
    sortedDistinct (a :: l) = insertS a (sortedDistinct l) := rfl

theorem mem_insertS {b a : ℚ} {l : List ℚ} : b ∈ insertS a l ↔ b = a ∨ b ∈ l := by
  induction l with
  | nil => simp [insertS]
  | cons c l ih =>
    by_cases h1 : a < c
    · simp [insertS, h1]
    · by_cases h2 : a = c
      · subst h2
        rw [insertS, if_neg h1, if_pos rfl, List.mem_cons]
        tauto
      · simp only [insertS, h1, if_false, h2, List.mem_cons, ih]
        tauto

theorem sorted_insertS {a : ℚ} {l : List ℚ} (h : l.Sorted (· < ·)) :
    (insertS a l).Sorted (· < ·) := by
  induction l with
  | nil => simp [insertS]
  | cons c l ih =>
    rw [List.sorted_cons] at h
    obtain ⟨hc, hl⟩ := h
    by_cases h1 : a < c
    · rw [insertS, if_pos h1, List.sorted_cons]
      refine ⟨?_, List.sorted_cons.mpr ⟨hc, hl⟩⟩
      intro b hb
      rcases List.mem_cons.mp hb with rfl | hb'
      · exact h1
      · exact lt_trans h1 (hc b hb')
    · by_cases h2 : a = c
      · rw [insertS, if_neg h1, if_pos h2]
        exact List.sorted_cons.mpr ⟨hc, hl⟩
      · have hca : c < a := lt_of_le_of_ne (le_of_not_lt h1) (Ne.symm h2)
        rw [insertS, if_neg h1, if_neg h2, List.sorted_cons]
        refine ⟨?_, ih hl⟩
        intro b hb
        rcases mem_insertS.mp hb with rfl | hb'
        · exact hca
        · exact hc b hb'

theorem sortedDistinct_sorted (l : List ℚ) : (sortedDistinct l).Sorted (· < ·) := by
  induction l with
  | nil => simp [sortedDistinct]
  | cons a l ih => rw [sortedDistinct_cons]; exact sorted_insertS ih

theorem mem_sortedDistinct {b : ℚ} {l : List ℚ} : b ∈ sortedDistinct l ↔ b ∈ l := by
  induction l with
  | nil => simp [sortedDistinct]
  | cons a l ih => rw [sortedDistinct_cons, mem_insertS, ih, List.mem_cons]

theorem sortedDistinct_nodup (l : List ℚ) : (sortedDistinct l).Nodup :=
  (sortedDistinct_sorted l).nodup

theorem length_sortedDistinct (l : List ℚ) :
    (sortedDistinct l).length = l.toFinset.card := by
  have hset : (sortedDistinct l).toFinset = l.toFinset := by
    ext v
    simp [List.mem_toFinset, mem_sortedDistinct]
  calc (sortedDistinct l).length = (sortedDistinct l).toFinset.card :=
        (List.toFinset_card_of_nodup (sortedDistinct_nodup l)).symm
    _ = l.toFinset.card := by rw [hset]

theorem idxOf_lt_length {v : ℚ} {l : List ℚ} (h : v ∈ l) : idxOf v l < l.length := by
  induction l with
  | nil => simp at h
  | cons a l ih =>
    rw [idxOf]
    by_cases hv : v = a
    · simp [hv]
    · rcases List.mem_cons.mp h with h' | h'
      · exact absurd h' hv
      · simp only [hv, if_false, List.length_cons]
        exact Nat.succ_lt_succ (ih h')

theorem idxOf_strictMono {l : List ℚ} (hs : l.Sorted (· < ·)) {a b : ℚ}
    (ha : a ∈ l) (hb : b ∈ l) (hab : a < b) : idxOf a l < idxOf b l := by
  induction l with
  | nil => simp at ha
  | cons c l ih =>
    rw [List.sorted_cons] at hs
    obtain ⟨hc, hl⟩ := hs
    by_cases hac : a = c
    · have hbc : b ≠ c := by
        rintro rfl
        rw [hac] at hab
        exact lt_irrefl b hab
      simp [idxOf, hac, hbc]
    · have ha' : a ∈ l := by
        rcases List.mem_cons.mp ha with h' | h'
        · exact absurd h' hac
        · exact h'
      have hca : c < a := hc a ha'
      have hbc : b ≠ c := by
        rintro rfl
        exact lt_irrefl b (lt_trans hca hab)
      have hb' : b ∈ l := by
        rcases List.mem_cons.mp hb with h' | h'
        · exact absurd h' hbc
        · exact h'
      simp only [idxOf, hac, if_false, hbc]
      exact Nat.succ_lt_succ (ih hl ha' hb')

theorem foldl_min_le_init (l : List ℚ) (a : ℚ) : l.foldl min a ≤ a := by
  induction l generalizing a with
  | nil => simp
  | cons b l ih => exact le_trans (ih (min a b)) (min_le_left a b)

theorem foldl_min_le_mem (l : List ℚ) : ∀ (a : ℚ), ∀ b ∈ l, l.foldl min a ≤ b := by
  induction l with
  | nil => simp
  | cons c l ih =>
    intro a b hb
    rcases List.mem_cons.mp hb with rfl | hb'
    · calc List.foldl min (min a b) l ≤ min a b := foldl_min_le_init l (min a b)
        _ ≤ b := min_le_right a b
    · exact ih (min a c) b hb'

theorem foldl_min_mem (l : List ℚ) (a : ℚ) : l.foldl min a ∈ a :: l := by
  induction l generalizing a with
  | nil => simp
  | cons b l ih =>
    have h := ih (min a b)
    simp only [List.foldl]
    rcases List.mem_cons.mp h with h' | h'
    · rcases min_choice a b with hm | hm
      · exact List.mem_cons.mpr (Or.inl (h'.trans hm))
      · exact List.mem_cons.mpr (Or.inr (List.mem_cons.mpr (Or.inl (h'.trans hm))))
    · exact List.mem_cons.mpr (Or.inr (List.mem_cons.mpr (Or.inr h')))

theorem listMin_spec {l : List ℚ} {m : ℚ} (h : listMin l = some m) :
    m ∈ l ∧ ∀ b ∈ l, m ≤ b := by
  cases l with
  | nil => simp [listMin] at h
  | cons a l =>
    rw [listMin] at h
    injection h with h
    subst h
    refine ⟨foldl_min_mem l a, ?_⟩
    intro b hb
    rcases List.mem_cons.mp hb with rfl | hb'
    · exact foldl_min_le_init l b
    · exact foldl_min_le_mem l a b hb'

theorem foldl_max_init_le (l : List ℚ) (a : ℚ) : a ≤ l.foldl max a := by
  induction l generalizing a with
  | nil => simp
  | cons b l ih => exact le_trans (le_max_left a b) (ih (max a b))

theorem foldl_max_mem_le (l : List ℚ) : ∀ (a : ℚ), ∀ b ∈ l, b ≤ l.foldl max a := by
  induction l with
  | nil => simp
  | cons c l ih =>
    intro a b hb
    rcases List.mem_cons.mp hb with rfl | hb'
    · calc b ≤ max a b := le_max_right a b
        _ ≤ List.foldl max (max a b) l := foldl_max_init_le l (max a b)
    · exact ih (max a c) b hb'

theorem foldl_max_mem (l : List ℚ) (a : ℚ) : l.foldl max a ∈ a :: l := by
  induction l generalizing a with
  | nil => simp
  | cons b l ih =>
    have h := ih (max a b)
    simp only [List.foldl]
    rcases List.mem_cons.mp h with h' | h'
    · rcases max_choice a b with hm | hm
      · exact List.mem_cons.mpr (Or.inl (h'.trans hm))
      · exact List.mem_cons.mpr (Or.inr (List.mem_cons.mpr (Or.inl (h'.trans hm))))
    · exact List.mem_cons.mpr (Or.inr (List.mem_cons.mpr (Or.inr h')))

theorem listMax_spec {l : List ℚ} {M : ℚ} (h : listMax l = some M) :
    M ∈ l ∧ ∀ b ∈ l, b ≤ M := by
  cases l with
  | nil => simp [listMax] at h
  | cons a l =>
    rw [listMax] at h
    injection h with h
    subst h
    refine ⟨foldl_max_mem l a, ?_⟩
    intro b hb
    rcases List.mem_cons.mp hb with rfl | hb'
    · exact foldl_max_init_le l b
    · exact foldl_max_mem_le l a b hb'

theorem lastVal_eq_none {f : Point → Option ℤ} {l : List Point}
    (h : ∀ q ∈ l, f q = none) : lastVal f l = none := by
  induction l with
  | nil => rfl
  | cons p rest ih =>
    rw [lastVal, ih (fun q hq => h q (List.mem_cons.mpr (Or.inr hq)))]
    exact h p (List.mem_cons.mpr (Or.inl rfl))

theorem lastVal_append_some {f : Point → Option ℤ} {l₂ : List Point} {v : ℤ}
    (h : lastVal f l₂ = some v) (l₁ : List Point) : lastVal f (l₁ ++ l₂) = some v := by
  induction l₁ with
  | nil => simpa using h
  | cons p l₁ ih => rw [List.cons_append, lastVal, ih]

theorem lastVal_some_spec {f : Point → Option ℤ} {l : List Point} :
    ∀ {v : ℤ}, lastVal f l = some v → ∃ q ∈ l, f q = some v := by
  induction l with
  | nil => intro v h; simp [lastVal] at h
  | cons p rest ih =>
    intro v h
    rw [lastVal] at h
    cases hr : lastVal f rest with
    | some w =>
      rw [hr] at h
      obtain ⟨q, hq, hfq⟩ := ih hr
      injection h with h
      subst h
      exact ⟨q, List.mem_cons.mpr (Or.inr hq), hfq⟩
    | none =>
      rw [hr] at h
      exact ⟨p, List.mem_cons.mpr (Or.inl rfl), h⟩

theorem lastVal_none_all {f : Point → Option ℤ} {l : List Point} :
    lastVal f l = none → ∀ r ∈ l, f r = none := by
  induction l with
  | nil =>
    intro _ r hr
    simp at hr
  | cons p rest ih =>
    intro h
    rw [lastVal] at h
    cases hr : lastVal f rest with
    | some w =>
      rw [hr] at h
      cases h
    | none =>
      rw [hr] at h
      intro r hrr
      rcases List.mem_cons.mp hrr with rfl | hm
      · exact h
      · exact ih hr r hm

theorem lastVal_some_split {f : Point → Option ℤ} {l : List Point} :
    ∀ {v : ℤ}, lastVal f l = some v →
      ∃ l₁ q l₂, l = l₁ ++ q :: l₂ ∧ f q = some v ∧ ∀ r ∈ l₂, f r = none := by
  induction l with
  | nil =>
    intro v h
    simp [lastVal] at h
  | cons p rest ih =>
    intro v h
    rw [lastVal] at h
    cases hr : lastVal f rest with
    | some w =>
      rw [hr] at h
      injection h with h
      subst h
      obtain ⟨l₁, q, l₂, hsplit, hfq, hnone⟩ := ih hr
      exact ⟨p :: l₁, q, l₂, by rw [hsplit, List.cons_append], hfq, hnone⟩
    | none =>
      rw [hr] at h
      exact ⟨[], p, rest, rfl, h, lastVal_none_all hr⟩

theorem lastVal_isSome_of_mem {f : Point → Option ℤ} {l : List Point} {p : Point}
    (hp : p ∈ l) (hf : (f p).isSome) : (lastVal f l).isSome := by
  induction l with
  | nil => simp at hp
  | cons q rest ih =>
    rw [lastVal]
    cases hr : lastVal f rest with
    | some w => simp
    | none =>
      rcases List.mem_cons.mp hp with rfl | hp'
      · simpa using hf
      · have hrec := ih hp'
        rw [hr] at hrec
        simp at hrec

theorem lookupIdx_eq_some {axis : List ℚ} {v : ℚ} {i : ℕ}
    (h : lookupIdx axis v = some i) : v ∈ axis ∧ i = idxOf v axis := by
  rw [lookupIdx] at h
  by_cases hv : v ∈ axis
  · rw [if_pos hv] at h
    injection h with h
    exact ⟨hv, h.symm⟩
  · rw [if_neg hv] at h
    cases h

theorem fillLoop_some (xs ys : List ℚ) (h : ℕ) (zmin znorm : ℚ) :
    ∀ (pts : List Point), (∀ p ∈ pts, p.1 ∈ xs ∧ p.2.1 ∈ ys) →
    ∀ g, ∃ g', fillLoop xs ys h zmin znorm pts g = some g' := by
  intro pts
  induction pts with
  | nil => exact fun _ g => ⟨g, rfl⟩
  | cons p rest ih =>
    intro hmem g
    obtain ⟨hx, hy⟩ := hmem p (List.mem_cons.mpr (Or.inl rfl))
    simp only [fillLoop, lookupIdx, hx, hy, if_true]
    exact ih (fun q hq => hmem q (List.mem_cons.mpr (Or.inr hq))) _

theorem fillLoop_pixel (xs ys : List ℚ) (h : ℕ) (zmin znorm : ℚ) :
    ∀ (pts : List Point) (g g' : Grid),
      fillLoop xs ys h zmin znorm pts g = some g' →
      ∀ i j, g' i j = (lastVal (writeAt xs ys h zmin znorm i j) pts).getD (g i j) := by
  intro pts
  induction pts with
  | nil =>
    intro g g' hf i j
    injection hf with hf
    subst hf
    rfl
  | cons p rest ih =>
    intro g g' hf i j
    rw [fillLoop] at hf
    cases hx : lookupIdx xs p.1 with
    | none =>
      rw [hx] at hf
      cases hy : lookupIdx ys p.2.1 <;> rw [hy] at hf <;> cases hf
    | some px =>
      cases hy : lookupIdx ys p.2.1 with
      | none => rw [hx, hy] at hf; cases hf
      | some py =>
        rw [hx, hy] at hf
        obtain ⟨hxmem, hpx⟩ := lookupIdx_eq_some hx
        obtain ⟨hymem, hpy⟩ := lookupIdx_eq_some hy
        have hrec := ih _ _ hf i j
        rw [hrec, lastVal]
        cases hr : lastVal (writeAt xs ys h zmin znorm i j) rest with
        | some v => simp
        | none =>
          simp only [Option.getD_none, Option.getD]
          rw [setPixel, writeAt]
          by_cases ht : pointTarget xs ys h p = (i, j)
          · rw [if_pos ht]
            rw [pointTarget, Prod.mk.injEq] at ht
            obtain ⟨h1, h2⟩ := ht
            have hij : i = px ∧ j = h - 1 - py :=
              ⟨(hpx.trans h1).symm, by rw [hpy]; exact h2.symm⟩
            rw [if_pos hij]
            rfl
          · rw [if_neg ht]
            have hij : ¬(i = px ∧ j = h - 1 - py) := by
              rintro ⟨rfl, rfl⟩
              exact ht (by rw [pointTarget, hpx, hpy])
            rw [if_neg hij]

theorem axis_mem (pts : List Point) :
    ∀ p ∈ pts, p.1 ∈ xAxis pts ∧ p.2.1 ∈ yAxis pts := by
  intro p hp
  exact ⟨mem_sortedDistinct.mpr (List.mem_map_of_mem _ hp),
         mem_sortedDistinct.mpr (List.mem_map_of_mem _ hp)⟩


theorem process_nil : process [] = Except.error Err.emptyMin := rfl

theorem process_isOk (pts : List Point) (hne : pts ≠ []) :
    ∃ out, process pts = Except.ok out := by
  obtain ⟨a, rest, rfl⟩ : ∃ a rest, pts = a :: rest := by
    cases pts with
    | nil => exact absurd rfl hne
    | cons a rest => exact ⟨a, rest, rfl⟩
  cases hmin : listMin ((a :: rest).map (fun p => p.2.2)) with
  | none => simp [listMin] at hmin
  | some zmin =>
    cases hmax : listMax ((a :: rest).map (fun p => p.2.2)) with
    | none => simp [listMax] at hmax
    | some zmax =>
      obtain ⟨g', hg'⟩ := fillLoop_some (xAxis (a :: rest)) (yAxis (a :: rest))
        (yAxis (a :: rest)).length zmin (255 / (if zmax - zmin = 0 then 1 else zmax - zmin))
        (a :: rest) (axis_mem _) emptyGrid
      refine ⟨⟨(xAxis (a :: rest)).length, (yAxis (a :: rest)).length, zmin, zmax,
        (if zmax - zmin = 0 then 1 else zmax - zmin),
        255 / (if zmax - zmin = 0 then 1 else zmax - zmin), g'⟩, ?_⟩
      simp only [process]
      rw [hmin, hmax]
      simp only []
      rw [hg']

theorem process_fields {pts : List Point} {out : RunOutput}
    (h : process pts = Except.ok out) :
    listMin (pts.map (fun p => p.2.2)) = some out.zMin ∧
    listMax (pts.map (fun p => p.2.2)) = some out.zMax ∧
    out.width = (xAxis pts).length ∧
    out.height = (yAxis pts).length ∧
    out.zRange = (if out.zMax - out.zMin = 0 then 1 else out.zMax - out.zMin) ∧
    out.zNorm = 255 / out.zRange ∧
    ∀ i j, out.grid i j =
      (lastVal (writeAt (xAxis pts) (yAxis pts) (yAxis pts).length
                  out.zMin out.zNorm i j) pts).getD 0 := by
  cases pts with
  | nil => exact absurd h (by rw [process_nil]; exact fun h' => by cases h')
  | cons a rest =>
    simp only [process, List.map_cons, listMin, listMax] at h
    split at h
    · case _ g heq =>
      injection h with h
      subst h
      refine ⟨rfl, rfl, rfl, rfl, rfl, rfl, ?_⟩
      intro i j
      simp only []
      exact fillLoop_pixel _ _ _ _ _ _ _ _ heq i j
    · cases h

theorem pyInt_zero : pyInt 0 = 0 := by
  rw [pyInt, if_pos le_rfl, rat_floor_eq_floor]
  exact Int.floor_zero

theorem pyInt_bounds {zmin zmax z : ℚ} (h1 : zmin ≤ z) (h2 : z ≤ zmax) :
    0 ≤ pyInt ((z - zmin) * (255 / (if zmax - zmin = 0 then 1 else zmax - zmin))) ∧
    pyInt ((z - zmin) * (255 / (if zmax - zmin = 0 then 1 else zmax - zmin))) ≤ 255 := by
  by_cases h : zmax - zmin = 0
  · have hz : z = zmin := le_antisymm (by linarith) h1
    rw [if_pos h, hz, sub_self, zero_mul, pyInt_zero]
    exact ⟨le_rfl, by norm_num⟩
  · have hlt : 0 < zmax - zmin := lt_of_le_of_ne (by linarith) (Ne.symm h)
    rw [if_neg h]
    have ht0 : 0 ≤ (z - zmin) * (255 / (zmax - zmin)) :=
      mul_nonneg (by linarith) (by positivity)
    have ht255 : (z - zmin) * (255 / (zmax - zmin)) ≤ 255 := by
      calc (z - zmin) * (255 / (zmax - zmin))
          ≤ (zmax - zmin) * (255 / (zmax - zmin)) :=
            mul_le_mul_of_nonneg_right (by linarith) (by positivity)
        _ = 255 := by field_simp
    rw [pyInt, if_pos ht0, rat_floor_eq_floor]
    refine ⟨Int.floor_nonneg.mpr ht0, ?_⟩
    calc ⌊(z - zmin) * (255 / (zmax - zmin))⌋ ≤ ⌊(255 : ℚ)⌋ := Int.floor_le_floor ht255
      _ = 255 := by norm_num

theorem parseLine_error_iff (l : Line) :
    parseLine l = Except.error Err.format ↔ wellFormedLine l = false := by
  rcases l with _ | ⟨_ | x, _ | ⟨_ | y, _ | ⟨_ | z, _ | ⟨d, t⟩⟩⟩⟩ <;>
    simp [parseLine, wellFormedLine]

theorem parseLine_error_eq {l : Line} {e : Err} (h : parseLine l = Except.error e) :
    e = Err.format := by
  rcases l with _ | ⟨_ | x, _ | ⟨_ | y, _ | ⟨_ | z, _ | ⟨d, t⟩⟩⟩⟩ <;>
    simp [parseLine] at h <;> exact h.symm

theorem parseLines_error_eq :
    ∀ {lines : List Line} {e : Err}, parseLines lines = Except.error e → e = Err.format := by
  intro lines
  induction lines with
  | nil => intro e h; cases h
  | cons l rest ih =>
    intro e h
    rw [parseLines] at h
    cases hl : parseLine l with
    | error e' =>
      simp only [hl] at h
      injection h with h
      rw [← h]
      exact parseLine_error_eq hl
    | ok po =>
      simp only [hl] at h
      cases po with
      | none => exact ih h
      | some p =>
        cases hr : parseLines rest with
        | error e' =>
          rw [hr] at h
          simp only [Except.map] at h
          injection h with h
          rw [← h]
          exact ih hr
        | ok ps =>
          rw [hr] at h
          simp only [Except.map] at h
          cases h

theorem parseLines_error_iff (lines : List Line) :
    parseLines lines = Except.error Err.format ↔
      ∃ l ∈ lines, wellFormedLine l = false := by
  induction lines with
  | nil => simp [parseLines]
  | cons l rest ih =>
    rw [parseLines]
    cases hl : parseLine l with
    | error e =>
      obtain rfl := parseLine_error_eq hl
      simp only [List.mem_cons]
      constructor
      · intro _
        exact ⟨l, Or.inl rfl, (parseLine_error_iff l).mp hl⟩
      · intro _
        trivial
    | ok po =>
      have hwf : wellFormedLine l = true := by
        cases hwfc : wellFormedLine l with
        | true => rfl
        | false => rw [(parseLine_error_iff l).mpr hwfc] at hl; cases hl
      cases po with
      | none =>
        rw [ih]
        simp [hwf]
      | some p =>
        cases hr : parseLines rest with
        | error e =>
          obtain rfl := parseLines_error_eq hr
          simp only [Except.map]
          constructor
          · intro _
            obtain ⟨l', hl', hwf'⟩ := ih.mp hr
            exact ⟨l', List.mem_cons.mpr (Or.inr hl'), hwf'⟩
          · intro _
            trivial
        | ok ps =>
          simp only [Except.map]
          constructor
          · intro h'
            cases h'
          · intro h'
            obtain ⟨l', hl', hwf'⟩ := h'
            rcases List.mem_cons.mp hl' with rfl | hmem
            · rw [hwf] at hwf'
              cases hwf'
            · have hcontra := ih.mpr ⟨l', hmem, hwf'⟩
              rw [hr] at hcontra
              cases hcontra

theorem process_not_format (pts : List Point) :
    process pts ≠ Except.error Err.format := by
  cases pts with
  | nil =>
    rw [process_nil]
    intro h
    injection h with h
    cases h
  | cons a rest =>
    simp only [process, List.map_cons, listMin, listMax]
    split
    · intro h; cases h
    · intro h
      injection h with h
      cases h

theorem run_format_iff (lines : List Line) :
    run lines = Except.error Err.format ↔ ∃ l ∈ lines, wellFormedLine l = false := by
  rw [run, ← parseLines_error_iff]
  cases hp : parseLines lines with
  | error e =>
    obtain rfl := parseLines_error_eq hp
    simp [Except.bind]
  | ok ps =>
    simp only [Except.bind]
    constructor
    · intro h; exact absurd h (process_not_format ps)
    · intro h; cases h

theorem blank_parse (lines : List Line) :
    (∀ l ∈ lines, l = []) → parseLines lines = Except.ok [] := by
  induction lines with
  | nil => intro _; rfl
  | cons l rest ih =>
    intro hblank
    have hl := hblank l (List.mem_cons.mpr (Or.inl rfl))
    subst hl
    exact ih (fun l' hl' => hblank l' (List.mem_cons.mpr (Or.inr hl')))

/-- C1 (amended): `z_min` and `z_max` are the minimum and maximum of the
z values, and the normalization factor is `255 / (z_max - z_min)` whenever
`z_max - z_min` is nonzero — in particular also when the range is strictly
between 0 and 1 — while the divisor `1.0` is used exactly when
`z_max - z_min = 0`. -/
theorem zRange_or_default (pts : List Point) (hne : pts ≠ []) :
    ∃ out, process pts = Except.ok out ∧
      out.zMin ∈ pts.map (fun p => p.2.2) ∧
      out.zMax ∈ pts.map (fun p => p.2.2) ∧
      (∀ p ∈ pts, out.zMin ≤ p.2.2 ∧ p.2.2 ≤ out.zMax) ∧
      (out.zMax - out.zMin ≠ 0 →
        out.zRange = out.zMax - out.zMin ∧
        out.zNorm = 255 / (out.zMax - out.zMin)) ∧
      (out.zMax - out.zMin = 0 → out.zRange = 1 ∧ out.zNorm = 255) := by
  obtain ⟨out, hout⟩ := process_isOk pts hne
  obtain ⟨hmin, hmax, _, _, hzr, hzn, _⟩ := process_fields hout
  obtain ⟨hminmem, hminle⟩ := listMin_spec hmin
  obtain ⟨hmaxmem, hmaxle⟩ := listMax_spec hmax
  refine ⟨out, hout, hminmem, hmaxmem, ?_, ?_, ?_⟩
  · intro p hp
    have hz : p.2.2 ∈ pts.map (fun p => p.2.2) := List.mem_map_of_mem _ hp
    exact ⟨hminle _ hz, hmaxle _ hz⟩
  · intro hne0
    constructor
    · rw [hzr, if_neg hne0]
    · rw [hzn, hzr, if_neg hne0]
  · intro heq0
    constructor
    · rw [hzr, if_pos heq0]
    · rw [hzn, hzr, if_pos heq0]
      norm_num

/-- C4: the output width is the number of distinct x values and the
height the number of distinct y values, the axes being the distinct
values collected with set semantics and sorted strictly ascending. -/
theorem output_dimensions (pts : List Point) (hne : pts ≠ []) :
    ∃ out, process pts = Except.ok out ∧
      out.width = (pts.map (fun p => p.1)).toFinset.card ∧
      out.height = (pts.map (fun p => p.2.1)).toFinset.card ∧
      (xAxis pts).Sorted (· < ·) ∧ (yAxis pts).Sorted (· < ·) ∧
      (∀ v, v ∈ xAxis pts ↔ v ∈ pts.map (fun p => p.1)) ∧
      (∀ v, v ∈ yAxis pts ↔ v ∈ pts.map (fun p => p.2.1)) ∧
      out.width = (xAxis pts).length ∧ out.height = (yAxis pts).length := by
  obtain ⟨out, hout⟩ := process_isOk pts hne
  obtain ⟨_, _, hw, hh, _, _, _⟩ := process_fields hout
  refine ⟨out, hout, ?_, ?_, sortedDistinct_sorted _, sortedDistinct_sorted _,
    fun v => mem_sortedDistinct, fun v => mem_sortedDistinct, hw, hh⟩
  · rw [hw, xAxis, length_sortedDistinct]
  · rw [hh, yAxis, length_sortedDistinct]

/-- C5: samples are replayed in input order, so when the samples after
`p` in the input all miss `p`'s raster cell, the final pixel there is
`p`'s quantized value — the last write to a cell wins, with no averaging. -/
theorem last_write_wins (l₁ l₂ : List Point) (p : Point)
    (hlast : ∀ q ∈ l₂,
      pointTarget (xAxis (l₁ ++ p :: l₂)) (yAxis (l₁ ++ p :: l₂))
          (yAxis (l₁ ++ p :: l₂)).length q ≠
        pointTarget (xAxis (l₁ ++ p :: l₂)) (yAxis (l₁ ++ p :: l₂))
          (yAxis (l₁ ++ p :: l₂)).length p) :
    ∃ out, process (l₁ ++ p :: l₂) = Except.ok out ∧
      out.grid (pointTarget (xAxis (l₁ ++ p :: l₂)) (yAxis (l₁ ++ p :: l₂))
                  (yAxis (l₁ ++ p :: l₂)).length p).1
               (pointTarget (xAxis (l₁ ++ p :: l₂)) (yAxis (l₁ ++ p :: l₂))
                  (yAxis (l₁ ++ p :: l₂)).length p).2 =
        pointValue out.zMin out.zNorm p := by
  have hne : l₁ ++ p :: l₂ ≠ [] := by simp
  obtain ⟨out, hout⟩ := process_isOk _ hne
  obtain ⟨_, _, _, _, _, _, hgrid⟩ := process_fields hout
  refine ⟨out, hout, ?_⟩
  rw [hgrid]
  have htail : lastVal
      (writeAt (xAxis (l₁ ++ p :: l₂)) (yAxis (l₁ ++ p :: l₂))
        (yAxis (l₁ ++ p :: l₂)).length out.zMin out.zNorm
        (pointTarget (xAxis (l₁ ++ p :: l₂)) (yAxis (l₁ ++ p :: l₂))
          (yAxis (l₁ ++ p :: l₂)).length p).1
        (pointTarget (xAxis (l₁ ++ p :: l₂)) (yAxis (l₁ ++ p :: l₂))
          (yAxis (l₁ ++ p :: l₂)).length p).2) l₂ = none := by
    apply lastVal_eq_none
    intro q hq
    rw [writeAt, if_neg]
    intro hc
    exact hlast q hq hc
  have hcons : lastVal
      (writeAt (xAxis (l₁ ++ p :: l₂)) (yAxis (l₁ ++ p :: l₂))
        (yAxis (l₁ ++ p :: l₂)).length out.zMin out.zNorm
        (pointTarget (xAxis (l₁ ++ p :: l₂)) (yAxis (l₁ ++ p :: l₂))
          (yAxis (l₁ ++ p :: l₂)).length p).1
        (pointTarget (xAxis (l₁ ++ p :: l₂)) (yAxis (l₁ ++ p :: l₂))
          (yAxis (l₁ ++ p :: l₂)).length p).2) (p :: l₂) =
      some (pointValue out.zMin out.zNorm p) := by
    rw [lastVal, htail, writeAt, if_pos rfl]
  rw [lastVal_append_some hcons l₁]
  rfl

/-- C6: every sample's x and y are keys of the axis index dictionaries
built from the same samples (so the rasterizer's lookups never fail),
and the index assigned on an axis is strictly increasing in the
coordinate value. -/
theorem axis_lookup_safety (pts : List Point) :
    (∀ p ∈ pts,
      lookupIdx (xAxis pts) p.1 = some (idxOf p.1 (xAxis pts)) ∧
      lookupIdx (yAxis pts) p.2.1 = some (idxOf p.2.1 (yAxis pts))) ∧
    (∀ a b, a ∈ xAxis pts → b ∈ xAxis pts → a < b →
      idxOf a (xAxis pts) < idxOf b (xAxis pts)) ∧
    (∀ a b, a ∈ yAxis pts → b ∈ yAxis pts → a < b →
      idxOf a (yAxis pts) < idxOf b (yAxis pts)) := by
  refine ⟨?_, ?_, ?_⟩
  · intro p hp
    obtain ⟨hx, hy⟩ := axis_mem pts p hp
    rw [lookupIdx, if_pos hx, lookupIdx, if_pos hy]
    exact ⟨rfl, rfl⟩
  · intro a b ha hb hab
    exact idxOf_strictMono (sortedDistinct_sorted _) ha hb hab
  · intro a b ha hb hab
    exact idxOf_strictMono (sortedDistinct_sorted _) ha hb hab

/-- C7: the raster starts out all black, and a cell no sample targets is
still 0 in the final image. -/
theorem untouched_pixels_zero (pts : List Point) (hne : pts ≠ []) :
    (∀ i j, emptyGrid i j = 0) ∧
    ∃ out, process pts = Except.ok out ∧
      ∀ i j, (∀ p ∈ pts,
          pointTarget (xAxis pts) (yAxis pts) (yAxis pts).length p ≠ (i, j)) →
        out.grid i j = 0 := by
  refine ⟨fun i j => rfl, ?_⟩
  obtain ⟨out, hout⟩ := process_isOk pts hne
  obtain ⟨_, _, _, _, _, _, hgrid⟩ := process_fields hout
  refine ⟨out, hout, ?_⟩
  intro i j hmiss
  rw [hgrid i j, lastVal_eq_none]
  · rfl
  · intro q hq
    rw [writeAt, if_neg (hmiss q hq)]

/-- C8: a blank line is skipped without effect, and parsing — and with it
the whole run, before any output is produced — fails with the format
error exactly when some line is neither blank nor three numeric tokens. -/
theorem format_error_behavior (lines : List Line) :
    (∀ rest : List Line, parseLines (([] : Line) :: rest) = parseLines rest) ∧
    (parseLines lines = Except.error Err.format ↔
      ∃ l ∈ lines, wellFormedLine l = false) ∧
    (run lines = Except.error Err.format ↔
      ∃ l ∈ lines, wellFormedLine l = false) :=
  ⟨fun _ => rfl, parseLines_error_iff lines, run_format_iff lines⟩

/-- C9: with an argument count other than one the gate stops with the
usage error and exit status 1; with one argument whose lowercased name
does not end in `.xyz` it stops with the extension error and exit status
1; it proceeds to read the input only when both checks pass. -/
theorem cli_gate_spec (argv : List (List Char)) :
    (argv.length ≠ 2 →
      checkArgs argv = CliResult.usageError ∧ cliExitCode (checkArgs argv) = 1) ∧
    (∀ s input, argv = [s, input] →
      xyzExt.isSuffixOf (strLower input) = false →
      checkArgs argv = CliResult.extensionError ∧ cliExitCode (checkArgs argv) = 1) ∧
    (∀ f, checkArgs argv = CliResult.proceed f →
      argv.length = 2 ∧ xyzExt.isSuffixOf (strLower f) = true) := by
  rcases argv with _ | ⟨s, _ | ⟨input, _ | ⟨c, t⟩⟩⟩
  · refine ⟨fun _ => ⟨rfl, rfl⟩, ?_, ?_⟩
    · intro s input heq
      cases heq
    · intro f hf
      cases hf
  · refine ⟨fun _ => ⟨rfl, rfl⟩, ?_, ?_⟩
    · intro s' input' heq
      cases heq
    · intro f hf
      cases hf
  · refine ⟨fun h => absurd rfl h, ?_, ?_⟩
    · intro s' input' heq hsuf
      injection heq with h1 h2
      injection h2 with h2 h3
      subst h1
      subst h2
      simp only [checkArgs, hsuf]
      exact ⟨rfl, rfl⟩
    · intro f hf
      simp only [checkArgs] at hf
      by_cases hsuf : xyzExt.isSuffixOf (strLower input) = true
      · rw [if_pos hsuf] at hf
        injection hf with hf
        subst hf
        exact ⟨rfl, hsuf⟩
      · rw [if_neg hsuf] at hf
        cases hf
  · refine ⟨fun _ => ⟨rfl, rfl⟩, ?_, ?_⟩
    · intro s' input' heq
      injection heq with h1 h2
      injection h2 with h2 h3
      cases h3
    · intro f hf
      cases hf

/-- C10: an input with only blank lines parses to an empty sample list
without a format error, and the run then aborts with the error of
`min([])` in the normalizer, before any image is produced. -/
theorem empty_input_min_failure (lines : List Line)
    (hblank : ∀ l ∈ lines, l = []) :
    parseLines lines = Except.ok [] ∧ run lines = Except.error Err.emptyMin := by
  have hp := blank_parse lines hblank
  refine ⟨hp, ?_⟩
  rw [run, hp]
  exact process_nil

/-- C2 (amended): each sample's pixel holds the quantized value
`int((z' - z_min) * 255 / z_range)` of the last input sample mapping to
that same cell — the sample `q` below targets the cell and no sample
after it in input order does (so `q = p` itself when no other sample
shares the cell) — with `z_range = z_max - z_min` when that difference
is nonzero and `1` otherwise; the value always lies in [0, 255], so
clamping never fires. -/
theorem pixel_value_spec (pts : List Point) (hne : pts ≠ []) :
    ∃ out, process pts = Except.ok out ∧
      ∀ p ∈ pts, ∃ l₁ q l₂,
        pts = l₁ ++ q :: l₂ ∧
        pointTarget (xAxis pts) (yAxis pts) (yAxis pts).length q =
          pointTarget (xAxis pts) (yAxis pts) (yAxis pts).length p ∧
        (∀ r ∈ l₂, pointTarget (xAxis pts) (yAxis pts) (yAxis pts).length r ≠
          pointTarget (xAxis pts) (yAxis pts) (yAxis pts).length p) ∧
        out.grid (pointTarget (xAxis pts) (yAxis pts) (yAxis pts).length p).1
                 (pointTarget (xAxis pts) (yAxis pts) (yAxis pts).length p).2 =
          pointValue out.zMin out.zNorm q ∧
        pointValue out.zMin out.zNorm q =
          pyInt ((q.2.2 - out.zMin) *
            (255 / (if out.zMax - out.zMin = 0 then 1 else out.zMax - out.zMin))) ∧
        0 ≤ pointValue out.zMin out.zNorm q ∧
        pointValue out.zMin out.zNorm q ≤ 255 ∧
        ((∀ r ∈ pts, pointTarget (xAxis pts) (yAxis pts) (yAxis pts).length r =
            pointTarget (xAxis pts) (yAxis pts) (yAxis pts).length p → r = p) →
          q = p) := by
  obtain ⟨out, hout⟩ := process_isOk pts hne
  obtain ⟨hmin, hmax, _, _, hzr, hzn, hgrid⟩ := process_fields hout
  obtain ⟨hminmem, hminle⟩ := listMin_spec hmin
  obtain ⟨hmaxmem, hmaxle⟩ := listMax_spec hmax
  refine ⟨out, hout, ?_⟩
  intro p hp
  have hW : writeAt (xAxis pts) (yAxis pts) (yAxis pts).length out.zMin out.zNorm
      (pointTarget (xAxis pts) (yAxis pts) (yAxis pts).length p).1
      (pointTarget (xAxis pts) (yAxis pts) (yAxis pts).length p).2 p =
      some (pointValue out.zMin out.zNorm p) := by
    rw [writeAt, if_pos rfl]
  have hfsome : (writeAt (xAxis pts) (yAxis pts) (yAxis pts).length out.zMin out.zNorm
      (pointTarget (xAxis pts) (yAxis pts) (yAxis pts).length p).1
      (pointTarget (xAxis pts) (yAxis pts) (yAxis pts).length p).2 p).isSome := by
    rw [hW]
    rfl
  have hsome := lastVal_isSome_of_mem hp hfsome
  obtain ⟨v, hv⟩ := Option.isSome_iff_exists.mp hsome
  obtain ⟨l₁, q, l₂, hsplit, hfq, hnone⟩ := lastVal_some_split hv
  have hq : q ∈ pts := by
    rw [hsplit]
    exact List.mem_append_right l₁ (List.mem_cons_self q l₂)
  have hfq2 : pointTarget (xAxis pts) (yAxis pts) (yAxis pts).length q =
      pointTarget (xAxis pts) (yAxis pts) (yAxis pts).length p ∧
      v = pointValue out.zMin out.zNorm q := by
    rw [writeAt] at hfq
    by_cases hc : pointTarget (xAxis pts) (yAxis pts) (yAxis pts).length q =
        ((pointTarget (xAxis pts) (yAxis pts) (yAxis pts).length p).1,
         (pointTarget (xAxis pts) (yAxis pts) (yAxis pts).length p).2)
    · rw [if_pos hc] at hfq
      injection hfq with hfq
      exact ⟨hc, hfq.symm⟩
    · rw [if_neg hc] at hfq
      cases hfq
  have hmiss : ∀ r ∈ l₂,
      pointTarget (xAxis pts) (yAxis pts) (yAxis pts).length r ≠
        pointTarget (xAxis pts) (yAxis pts) (yAxis pts).length p := by
    intro r hr hc
    have hwn := hnone r hr
    rw [writeAt, if_pos hc] at hwn
    cases hwn
  have hzq : out.zMin ≤ q.2.2 ∧ q.2.2 ≤ out.zMax :=
    ⟨hminle _ (List.mem_map_of_mem _ hq), hmaxle _ (List.mem_map_of_mem _ hq)⟩
  have hval : pointValue out.zMin out.zNorm q =
      pyInt ((q.2.2 - out.zMin) *
        (255 / (if out.zMax - out.zMin = 0 then 1 else out.zMax - out.zMin))) := by
    rw [pointValue, hzn, hzr]
  have hbounds := pyInt_bounds hzq.1 hzq.2
  refine ⟨l₁, q, l₂, hsplit, hfq2.1, hmiss, ?_, hval, ?_, ?_, ?_⟩
  · rw [hgrid, hv]
    exact hfq2.2
  · rw [hval]
    exact hbounds.1
  · rw [hval]
    exact hbounds.2
  · intro huniq
    exact huniq q hq hfq2.1

/-- C3: on the four input lines `0 0 10`, `1 0 20`, `0 1 30`, `1 1 40`
the run produces a 2x2 image with z_min = 10, z_max = 40, z_range = 30,
factor 8.5, top row [170, 255] and bottom row [0, 85]. -/
theorem concrete_scenario : ∃ out,
    run [[some 0, some 0, some 10], [some 1, some 0, some 20],
         [some 0, some 1, some 30], [some 1, some 1, some 40]] = Except.ok out ∧
    out.width = 2 ∧ out.height = 2 ∧ out.zMin = 10 ∧ out.zMax = 40 ∧
    out.zRange = 30 ∧ out.zNorm = 17/2 ∧
    out.grid 0 0 = 170 ∧ out.grid 1 0 = 255 ∧
    out.grid 0 1 = 0 ∧ out.grid 1 1 = 85 := by
  obtain ⟨out, hout⟩ :=
    process_isOk [((0:ℚ), (0:ℚ), (10:ℚ)), (1, 0, 20), (0, 1, 30), (1, 1, 40)] (by simp)
  obtain ⟨hmin, hmax, hw, hh, hzr, hzn, hgrid⟩ := process_fields hout
  have hminv : listMin ([((0:ℚ), (0:ℚ), (10:ℚ)), (1, 0, 20), (0, 1, 30),
      (1, 1, 40)].map (fun p => p.2.2)) = some 10 := by
    norm_num [listMin]
  have hmaxv : listMax ([((0:ℚ), (0:ℚ), (10:ℚ)), (1, 0, 20), (0, 1, 30),
      (1, 1, 40)].map (fun p => p.2.2)) = some 40 := by
    norm_num [listMax]
  rw [hminv] at hmin
  rw [hmaxv] at hmax
  injection hmin with hmin
  injection hmax with hmax
  have hx : xAxis [((0:ℚ), (0:ℚ), (10:ℚ)), (1, 0, 20), (0, 1, 30), (1, 1, 40)] =
      [0, 1] := by
    norm_num [xAxis, sortedDistinct, insertS]
  have hy : yAxis [((0:ℚ), (0:ℚ), (10:ℚ)), (1, 0, 20), (0, 1, 30), (1, 1, 40)] =
      [0, 1] := by
    norm_num [yAxis, sortedDistinct, insertS]
  have hrange : out.zRange = 30 := by
    rw [hzr, ← hmin, ← hmax]
    norm_num
  have hznorm : out.zNorm = 17/2 := by
    rw [hzn, hrange]
    norm_num
  refine ⟨out, hout, ?_, ?_, hmin.symm, hmax.symm, hrange, hznorm, ?_, ?_, ?_, ?_⟩
  · rw [hw, hx]
    rfl
  · rw [hh, hy]
    rfl
  · rw [hgrid 0 0, hx, hy, ← hmin, hznorm]
    norm_num [lastVal, writeAt, pointTarget, idxOf, pointValue, pyInt,
      rat_floor_eq_floor, Prod.ext_iff]
  · rw [hgrid 1 0, hx, hy, ← hmin, hznorm]
    norm_num [lastVal, writeAt, pointTarget, idxOf, pointValue, pyInt,
      rat_floor_eq_floor, Prod.ext_iff]
  · rw [hgrid 0 1, hx, hy, ← hmin, hznorm]
    norm_num [lastVal, writeAt, pointTarget, idxOf, pointValue, pyInt,
      rat_floor_eq_floor, Prod.ext_iff]
  · rw [hgrid 1 1, hx, hy, ← hmin, hznorm]
    norm_num [lastVal, writeAt, pointTarget, idxOf, pointValue, pyInt,
      rat_floor_eq_floor, Prod.ext_iff]

/-- C1 as stated is false on the code: for the samples (0,0,0) and
(0,0,1/2) the z-range is 1/2, strictly between 0 and 1, yet the divisor
used is 1/2 — not the claimed max(1.0, 1/2) = 1.0 — and the factor is
510, not 255. -/
theorem zRange_claim_counterexample :
    (process [((0:ℚ), (0:ℚ), (0:ℚ)), ((0:ℚ), (0:ℚ), (1/2 : ℚ))]).toOption.map
        (fun o => (o.zMax - o.zMin, o.zRange, o.zNorm)) =
      some (1/2, 1/2, 510) ∧
    (255 : ℚ) / max 1 ((1/2 : ℚ) - 0) = 255 ∧ (510 : ℚ) ≠ 255 := by
  refine ⟨?_, by norm_num, by norm_num⟩
  obtain ⟨out, hout⟩ :=
    process_isOk [((0:ℚ), (0:ℚ), (0:ℚ)), ((0:ℚ), (0:ℚ), (1/2 : ℚ))] (by simp)
  obtain ⟨hmin, hmax, _, _, hzr, hzn, _⟩ := process_fields hout
  have hminv : listMin ([((0:ℚ), (0:ℚ), (0:ℚ)),
      ((0:ℚ), (0:ℚ), (1/2 : ℚ))].map (fun p => p.2.2)) = some 0 := by
    norm_num [listMin]
  have hmaxv : listMax ([((0:ℚ), (0:ℚ), (0:ℚ)),
      ((0:ℚ), (0:ℚ), (1/2 : ℚ))].map (fun p => p.2.2)) = some (1/2) := by
    norm_num [listMax]
  rw [hminv] at hmin
  rw [hmaxv] at hmax
  injection hmin with hmin
  injection hmax with hmax
  have hrange : out.zRange = 1/2 := by
    rw [hzr, ← hmin, ← hmax]
    norm_num
  have hnorm : out.zNorm = 510 := by
    rw [hzn, hrange]
    norm_num
  rw [hout]
  simp only [Except.toOption, Option.map]
  rw [hrange, hnorm, ← hmin, ← hmax]
  norm_num

/-- C2 as stated is false on the code: for the samples (0,0,0) and
(1,0,1/2) the pixel written for the second sample is 255, while the
claimed formula floor((z - z_min) * 255 / max(1.0, z_max - z_min)),
clamped to [0,255], gives 127. -/
theorem pixel_claim_counterexample :
    (process [((0:ℚ), (0:ℚ), (0:ℚ)), ((1:ℚ), (0:ℚ), (1/2 : ℚ))]).toOption.map
        (fun o => o.grid 1 0) = some 255 ∧
    pyInt (((1/2 : ℚ) - 0) * (255 / max 1 ((1/2 : ℚ) - 0))) = 127 ∧
    (255 : ℤ) ≠ 127 := by
  refine ⟨?_, by norm_num [pyInt, rat_floor_eq_floor], by norm_num⟩
  obtain ⟨out, hout⟩ :=
    process_isOk [((0:ℚ), (0:ℚ), (0:ℚ)), ((1:ℚ), (0:ℚ), (1/2 : ℚ))] (by simp)
  obtain ⟨hmin, hmax, _, _, hzr, hzn, hgrid⟩ := process_fields hout
  have hminv : listMin ([((0:ℚ), (0:ℚ), (0:ℚ)),
      ((1:ℚ), (0:ℚ), (1/2 : ℚ))].map (fun p => p.2.2)) = some 0 := by
    norm_num [listMin]
  have hmaxv : listMax ([((0:ℚ), (0:ℚ), (0:ℚ)),
      ((1:ℚ), (0:ℚ), (1/2 : ℚ))].map (fun p => p.2.2)) = some (1/2) := by
    norm_num [listMax]
  rw [hminv] at hmin
  rw [hmaxv] at hmax
  injection hmin with hmin
  injection hmax with hmax
  have hx : xAxis [((0:ℚ), (0:ℚ), (0:ℚ)), ((1:ℚ), (0:ℚ), (1/2 : ℚ))] = [0, 1] := by
    norm_num [xAxis, sortedDistinct, insertS]
  have hy : yAxis [((0:ℚ), (0:ℚ), (0:ℚ)), ((1:ℚ), (0:ℚ), (1/2 : ℚ))] = [0] := by
    norm_num [yAxis, sortedDistinct, insertS]
  have hnorm : out.zNorm = 510 := by
    rw [hzn, hzr, ← hmin, ← hmax]
    norm_num
  have hg : out.grid 1 0 = 255 := by
    rw [hgrid 1 0, hx, hy, ← hmin, hnorm]
    norm_num [lastVal, writeAt, pointTarget, idxOf, pointValue, pyInt,
      rat_floor_eq_floor, Prod.ext_iff]
  rw [hout]
  simp only [Except.toOption, Option.map]
  rw [hg]

theorem zRange_or_default_witness : ∃ out,
    process [((0:ℚ), (0:ℚ), (10:ℚ)), ((1:ℚ), (0:ℚ), (20:ℚ))] = Except.ok out := by
  obtain ⟨out, hout, _⟩ :=
    zRange_or_default [((0:ℚ), (0:ℚ), (10:ℚ)), ((1:ℚ), (0:ℚ), (20:ℚ))] (by simp)
  exact ⟨out, hout⟩

theorem pixel_value_spec_witness : ∃ out,
    process [((3:ℚ), (4:ℚ), (5:ℚ))] = Except.ok out := by
  obtain ⟨out, hout, _⟩ := pixel_value_spec [((3:ℚ), (4:ℚ), (5:ℚ))] (by simp)
  exact ⟨out, hout⟩

theorem output_dimensions_witness : ∃ out,
    process [((2:ℚ), (3:ℚ), (4:ℚ)), ((5:ℚ), (6:ℚ), (7:ℚ))] = Except.ok out := by
  obtain ⟨out, hout, _⟩ :=
    output_dimensions [((2:ℚ), (3:ℚ), (4:ℚ)), ((5:ℚ), (6:ℚ), (7:ℚ))] (by simp)
  exact ⟨out, hout⟩

theorem last_write_wins_witness : ∃ out,
    process [((0:ℚ), (0:ℚ), (10:ℚ)), ((0:ℚ), (0:ℚ), (20:ℚ))] = Except.ok out := by
  obtain ⟨out, hout, _⟩ :=
    last_write_wins [((0:ℚ), (0:ℚ), (10:ℚ))] [] ((0:ℚ), (0:ℚ), (20:ℚ)) (by simp)
  exact ⟨out, hout⟩

theorem axis_lookup_safety_witness :
    lookupIdx (xAxis [((0:ℚ), (0:ℚ), (1:ℚ)), ((2:ℚ), (3:ℚ), (4:ℚ))]) 0 =
      some (idxOf 0 (xAxis [((0:ℚ), (0:ℚ), (1:ℚ)), ((2:ℚ), (3:ℚ), (4:ℚ))])) ∧
    idxOf (0:ℚ) (xAxis [((0:ℚ), (0:ℚ), (1:ℚ)), ((2:ℚ), (3:ℚ), (4:ℚ))]) <
      idxOf (2:ℚ) (xAxis [((0:ℚ), (0:ℚ), (1:ℚ)), ((2:ℚ), (3:ℚ), (4:ℚ))]) := by
  have h := axis_lookup_safety [((0:ℚ), (0:ℚ), (1:ℚ)), ((2:ℚ), (3:ℚ), (4:ℚ))]
  refine ⟨(h.1 ((0:ℚ), (0:ℚ), (1:ℚ)) (by simp)).1, h.2.1 0 2 ?_ ?_ (by norm_num)⟩
  · norm_num [xAxis, sortedDistinct, insertS]
  · norm_num [xAxis, sortedDistinct, insertS]

theorem untouched_pixels_zero_witness :
    emptyGrid 5 7 = 0 ∧ ∃ out,
      process [((0:ℚ), (0:ℚ), (10:ℚ))] = Except.ok out := by
  have h := untouched_pixels_zero [((0:ℚ), (0:ℚ), (10:ℚ))] (by simp)
  obtain ⟨out, hout, _⟩ := h.2
  exact ⟨h.1 5 7, out, hout⟩

theorem cli_gate_spec_witness :
    (checkArgs [['x']] = CliResult.usageError ∧
      cliExitCode (checkArgs [['x']]) = 1) ∧
    (checkArgs [['s'], ['i', 'n', '.', 't', 'x', 't']] = CliResult.extensionError ∧
      cliExitCode (checkArgs [['s'], ['i', 'n', '.', 't', 'x', 't']]) = 1) ∧
    ([['s'], ['i', 'n', '.', 'X', 'Y', 'Z']].length = 2 ∧
      xyzExt.isSuffixOf (strLower ['i', 'n', '.', 'X', 'Y', 'Z']) = true) := by
  refine ⟨(cli_gate_spec [['x']]).1 (by decide), ?_, ?_⟩
  · exact (cli_gate_spec [['s'], ['i', 'n', '.', 't', 'x', 't']]).2.1
      ['s'] ['i', 'n', '.', 't', 'x', 't'] rfl (by decide)
  · exact (cli_gate_spec [['s'], ['i', 'n', '.', 'X', 'Y', 'Z']]).2.2
      ['i', 'n', '.', 'X', 'Y', 'Z'] (by decide)

theorem empty_input_min_failure_witness :
    parseLines [([] : Line), ([] : Line)] = Except.ok [] ∧
    run [([] : Line), ([] : Line)] = Except.error Err.emptyMin :=
  empty_input_min_failure [([] : Line), ([] : Line)] (by simp)
